import Mathlib

/-!
Verification of the `gh-list-repos` / `gh-lor` repository listing tool.

Go strings are modelled as lists of characters (`GoStr`); Go `len` is list
length (identical for the ASCII data this tool handles).  Pure helpers are
translated directly from the source; the concurrent merge pipeline is
modelled by the sequence of candidate keys in arrival order, and the
goroutine/waitgroup structure of `main` by a small labelled transition
system.
-/

/-- Go strings, modelled as lists of characters. -/
abbrev GoStr := List Char

/-- Build a `GoStr` from a Lean string literal. -/
def gostr (s : String) : GoStr := s.data

namespace GhListRepos

/-!
## Dedup merge pipeline (`src/main.go`, `sendUniqueRepoName`, lines 99-106)

In `main.go` every candidate repository name (cache lines, user-fetch names,
org-fetch names) passes through

    sendUniqueRepoName := func(name string) {
      if name != "" {
        _, loaded := seenRepos.LoadOrStore(name, true)
        if !loaded { repoNameChannel <- name }
      }
    }

The consumer drains the channel in arrival order.  We model the whole
pipeline on the arrival sequence of candidate names: `dedupe` replays
`sendUniqueRepoName` sequentially with an explicit seen set. -/

/-- One run of the dedup loop with the seen set passed explicitly:
the dropped-empty / LoadOrStore / forward logic of `sendUniqueRepoName`. -/
def dedupeAux (seen : List GoStr) : List GoStr → List GoStr
  | [] => []
  | k :: rest =>
    if k = [] then dedupeAux seen rest
    else if k ∈ seen then dedupeAux seen rest
    else k :: dedupeAux (k :: seen) rest

/-- The stream forwarded to stdout / collected for the cache, as a function of
the arrival sequence of candidate names. -/
def dedupe (l : List GoStr) : List GoStr := dedupeAux [] l

/-- Specification-side function: keep the first occurrence of every element,
drop all later ones. -/
def firstOccurrences : List GoStr → List GoStr
  | [] => []
  | k :: rest => k :: firstOccurrences (rest.filter (fun x => x ≠ k))
termination_by l => l.length
decreasing_by
  simp only [List.length_cons]
  exact Nat.lt_succ_of_le (List.length_filter_le _ _)

theorem firstOccurrences_nil : firstOccurrences [] = [] := by
  rw [firstOccurrences]

theorem firstOccurrences_cons (k : GoStr) (rest : List GoStr) :
    firstOccurrences (k :: rest) =
      k :: firstOccurrences (rest.filter (fun x => x ≠ k)) := by
  rw [firstOccurrences]

theorem dedupeAux_eq_firstOccurrences (l : List GoStr) :
    ∀ seen, dedupeAux seen l =
      firstOccurrences (l.filter (fun k => decide (k ≠ []) && decide (k ∉ seen))) := by
  induction l with
  | nil => intro seen; simp [dedupeAux, firstOccurrences]
  | cons k rest ih =>
    intro seen
    by_cases hk : k = []
    · subst hk
      simp [dedupeAux, List.filter_cons, ih]
    · by_cases hs : k ∈ seen
      · rw [dedupeAux]
        simp only [if_neg hk, if_pos hs]
        rw [List.filter_cons, if_neg (by simp [hs])]
        exact ih seen
      · rw [dedupeAux]
        simp only [if_neg hk, if_neg hs]
        rw [List.filter_cons, if_pos (by simp [hk, hs]), firstOccurrences_cons]
        congr 1
        rw [ih (k :: seen), List.filter_filter]
        apply congrArg
        apply List.filter_congr
        intro x _
        by_cases hxk : x = k
        · subst hxk; simp
        · simp [hxk, List.mem_cons]

theorem mem_firstOccurrences {k : GoStr} : ∀ {l : List GoStr},
    k ∈ firstOccurrences l ↔ k ∈ l := by
  intro l
  induction l using firstOccurrences.induct with
  | case1 => simp [firstOccurrences]
  | case2 x rest ih =>
    rw [firstOccurrences_cons]
    by_cases hxk : k = x
    · subst hxk; simp
    · simp only [List.mem_cons, hxk, false_or, ih, List.mem_filter]
      constructor
      · exact fun h => h.1
      · exact fun h => ⟨h, by simp [hxk]⟩

theorem count_firstOccurrences (k : GoStr) : ∀ (l : List GoStr),
    (firstOccurrences l).count k = if k ∈ l then 1 else 0 := by
  intro l
  induction l using firstOccurrences.induct with
  | case1 => simp [firstOccurrences]
  | case2 x rest ih =>
    rw [firstOccurrences_cons]
    by_cases hxk : k = x
    · subst hxk
      rw [List.count_cons]
      simp only [ih, List.mem_filter]
      simp
    · have hmemf : (k ∈ rest.filter (fun y => decide (y ≠ x))) ↔ k ∈ rest := by
        rw [List.mem_filter]; simp [hxk]
      rw [List.count_cons]
      simp only [ih, hmemf]
      by_cases hkr : k ∈ rest
      · simp [hkr, hxk, Ne.symm hxk, List.mem_cons]
      · simp [hkr, hxk, Ne.symm hxk, List.mem_cons]

theorem mem_dedupe {k : GoStr} {l : List GoStr} :
    k ∈ dedupe l ↔ k ≠ [] ∧ k ∈ l := by
  rw [dedupe, dedupeAux_eq_firstOccurrences, mem_firstOccurrences, List.mem_filter]
  constructor
  · rintro ⟨h1, h2⟩
    simp only [Bool.and_eq_true, decide_eq_true_eq] at h2
    exact ⟨h2.1, h1⟩
  · rintro ⟨h1, h2⟩
    exact ⟨h2, by simp [h1]⟩

theorem count_dedupe (k : GoStr) (l : List GoStr) (hk : k ≠ []) (hmem : k ∈ l) :
    (dedupe l).count k = 1 := by
  rw [dedupe, dedupeAux_eq_firstOccurrences, count_firstOccurrences]
  rw [if_pos]
  rw [List.mem_filter]
  exact ⟨hmem, by simp [hk]⟩

/-- The dedup stream never forwards an empty key. -/
theorem dedupe_mem_ne_nil {k : GoStr} {l : List GoStr} (h : k ∈ dedupe l) : k ≠ [] :=
  (mem_dedupe.mp h).1

/-- Claim C1: For every arrival sequence of candidate keys (the merge of cache
lines, user-fetch names and org-fetch names, in arrival order, possibly with
duplicates), the stream forwarded to standard output keeps exactly the first
occurrence of each distinct non-empty key and drops all later occurrences, so
each distinct key appears exactly once in the output. -/
theorem C1_dedup_unique (l : List GoStr) :
    dedupe l = firstOccurrences (l.filter (fun k => decide (k ≠ []))) ∧
    ∀ k, k ∈ l → k ≠ [] → (dedupe l).count k = 1 := by
  constructor
  · rw [dedupe, dedupeAux_eq_firstOccurrences]
    congr 1
    apply List.filter_congr
    intro x _
    simp
  · intro k hmem hk
    exact count_dedupe k l hk hmem

/-- Witness for C1 at a concrete arrival sequence with duplicate keys across
sources. -/
theorem C1_dedup_unique_witness :
    dedupe [gostr "acme/widgets", gostr "acme/gadgets", gostr "acme/widgets"] =
      firstOccurrences
        (([gostr "acme/widgets", gostr "acme/gadgets", gostr "acme/widgets"]).filter
          (fun k => decide (k ≠ []))) ∧
    (dedupe [gostr "acme/widgets", gostr "acme/gadgets", gostr "acme/widgets"]).count
      (gostr "acme/widgets") = 1 := by
  refine ⟨(C1_dedup_unique _).1, ?_⟩
  exact (C1_dedup_unique _).2 (gostr "acme/widgets") (by simp) (by decide)

/-!
## Cache file model (`src/main.go`, lines 111-131 and 185-197)

The writer runs `os.WriteFile(cacheFile, []byte(strings.Join(collectedRepos,
"\n")+"\n"), 0644)`: the file is replaced by the collected entries joined
with newline plus a trailing newline.  The reader scans the file line by
line with `bufio.Scanner` (which never yields a token for a final trailing
newline), applies `strings.TrimSpace`, and feeds the result to
`sendUniqueRepoName` (which drops empty strings). -/

/-- The newline character. -/
def nlChar : Char := '\n'

/-- `strings.Join(xs, sep)`. -/
def goJoin (sep : GoStr) : List GoStr → GoStr
  | [] => []
  | [x] => x
  | x :: y :: rest => x ++ sep ++ goJoin sep (y :: rest)

/-- The exact content written to the cache file at the end of a run:
`strings.Join(collectedRepos, "\n") + "\n"`. -/
def writeContent (collected : List GoStr) : GoStr :=
  goJoin (gostr "\n") collected ++ gostr "\n"

/-- `strings.TrimSpace`: drop leading and trailing whitespace. -/
def trimSpace (s : GoStr) : GoStr :=
  ((s.dropWhile Char.isWhitespace).reverse.dropWhile Char.isWhitespace).reverse

/-- Split a string at every newline; a string with `n` newlines yields
`n + 1` pieces (so a trailing newline yields a final empty piece). -/
def splitOnNl : GoStr → List GoStr
  | [] => [[]]
  | c :: rest =>
    if c = nlChar then [] :: splitOnNl rest
    else
      match splitOnNl rest with
      | [] => [[c]]
      | p :: ps => (c :: p) :: ps

/-- The sequence of tokens produced by `bufio.Scanner` with the default
line splitter: empty input yields no token, and a final trailing newline
does not produce an extra empty token. -/
def scanLines (s : GoStr) : List GoStr :=
  if s = [] then []
  else
    let parts := splitOnNl s
    if parts.getLast? = some [] then parts.dropLast else parts

/-- The cache reader of `main.go` viewed as a pure function: scan line by
line, trim surrounding whitespace, drop entries that become empty. -/
def readBack (content : GoStr) : List GoStr :=
  ((scanLines content).map trimSpace).filter (fun s => decide (s ≠ []))

theorem gostr_nl : gostr "\n" = [nlChar] := rfl

theorem splitOnNl_ne_nil (s : GoStr) : splitOnNl s ≠ [] := by
  match s with
  | [] => simp [splitOnNl]
  | c :: rest =>
    rw [splitOnNl]
    by_cases hc : c = nlChar
    · simp [hc]
    · rw [if_neg hc]
      cases splitOnNl rest <;> simp

theorem splitOnNl_nl (s : GoStr) : splitOnNl (nlChar :: s) = [] :: splitOnNl s := by
  rw [splitOnNl, if_pos rfl]

theorem splitOnNl_cons_of_ne_nl {c : Char} (hc : c ≠ nlChar) (s : GoStr) :
    splitOnNl (c :: s) = (splitOnNl s).modifyHead (c :: ·) := by
  rw [splitOnNl, if_neg hc]
  cases h : splitOnNl s with
  | nil => exact absurd h (splitOnNl_ne_nil s)
  | cons p ps => simp [List.modifyHead]

theorem splitOnNl_append_no_nl {x : GoStr} (hx : nlChar ∉ x) (s : GoStr) :
    splitOnNl (x ++ s) = (splitOnNl s).modifyHead (x ++ ·) := by
  induction x with
  | nil =>
    cases h : splitOnNl s with
    | nil => exact absurd h (splitOnNl_ne_nil s)
    | cons p ps => simp [List.modifyHead, h]
  | cons c x ih =>
    have hc : c ≠ nlChar := fun h => hx (h ▸ List.mem_cons_self c x)
    have hx2 : nlChar ∉ x := fun h => hx (List.mem_cons_of_mem c h)
    rw [List.cons_append, splitOnNl_cons_of_ne_nl hc, ih hx2]
    cases h : splitOnNl s with
    | nil => exact absurd h (splitOnNl_ne_nil s)
    | cons p ps => simp [List.modifyHead]

theorem splitOnNl_join (l : List GoStr) (hl : l ≠ []) (hnl : ∀ s ∈ l, nlChar ∉ s) :
    splitOnNl (goJoin [nlChar] l ++ [nlChar]) = l ++ [[]] := by
  induction l with
  | nil => exact absurd rfl hl
  | cons x rest ih =>
    have hx : nlChar ∉ x := hnl x (List.mem_cons_self x rest)
    cases rest with
    | nil =>
      rw [goJoin, splitOnNl_append_no_nl hx, splitOnNl_nl]
      simp [splitOnNl, List.modifyHead]
    | cons y t =>
      have hrest : ∀ s ∈ y :: t, nlChar ∉ s :=
        fun s hs => hnl s (List.mem_cons_of_mem x hs)
      rw [goJoin]
      have hassoc :
          (x ++ [nlChar] ++ goJoin [nlChar] (y :: t)) ++ [nlChar] =
            x ++ (nlChar :: (goJoin [nlChar] (y :: t) ++ [nlChar])) := by
        simp
      rw [hassoc, splitOnNl_append_no_nl hx, splitOnNl_nl,
        ih (by simp) hrest]
      simp [List.modifyHead]

theorem writeContent_ne_nil (l : List GoStr) : writeContent l ≠ [] := by
  rw [writeContent, gostr_nl]
  simp

/-- Round trip of the scanner against the writer: the trailing newline
produces no extra token. -/
theorem scanLines_writeContent (l : List GoStr) (hl : l ≠ [])
    (hnl : ∀ s ∈ l, nlChar ∉ s) : scanLines (writeContent l) = l := by
  rw [scanLines, if_neg (writeContent_ne_nil l)]
  have hsplit : splitOnNl (writeContent l) = l ++ [[]] := by
    rw [writeContent, gostr_nl]
    exact splitOnNl_join l hl hnl
  simp only [hsplit, List.getLast?_concat, if_pos rfl, List.dropLast_concat, if_true]

theorem head?_dropWhile_false {p : Char → Bool} {l : GoStr} {a : Char}
    (h : (l.dropWhile p).head? = some a) : p a = false := by
  have hw := List.head?_dropWhile_not p l
  rw [h] at hw
  exact hw

theorem dropWhile_eq_self_of_head {p : Char → Bool} {l : GoStr}
    (h : ∀ a, l.head? = some a → p a = false) : l.dropWhile p = l := by
  cases l with
  | nil => rfl
  | cons a t =>
    rw [List.dropWhile_cons, if_neg]
    simp [h a rfl]

theorem getLast?_dropWhile_of_ne_nil {p : Char → Bool} {l : GoStr}
    (hne : l.dropWhile p ≠ []) : (l.dropWhile p).getLast? = l.getLast? := by
  obtain ⟨pre, hpre⟩ := List.dropWhile_suffix (l := l) p
  conv_rhs => rw [← hpre]
  rw [List.getLast?_append]
  cases hdl : (l.dropWhile p).getLast? with
  | none => exact absurd (List.getLast?_eq_none_iff.mp hdl) hne
  | some a => rfl

theorem head?_trimSpace_false {s : GoStr} {a : Char}
    (h : (trimSpace s).head? = some a) : Char.isWhitespace a = false := by
  rw [trimSpace, List.head?_reverse] at h
  by_cases hr : (s.dropWhile Char.isWhitespace).reverse.dropWhile Char.isWhitespace = []
  · rw [hr] at h
    simp at h
  · rw [getLast?_dropWhile_of_ne_nil hr, List.getLast?_reverse] at h
    exact head?_dropWhile_false h

theorem getLast?_trimSpace_false {s : GoStr} {a : Char}
    (h : (trimSpace s).getLast? = some a) : Char.isWhitespace a = false := by
  rw [trimSpace, List.getLast?_reverse] at h
  exact head?_dropWhile_false h

/-- `strings.TrimSpace` is idempotent. -/
theorem trimSpace_idem (s : GoStr) : trimSpace (trimSpace s) = trimSpace s := by
  have h1 : (trimSpace s).dropWhile Char.isWhitespace = trimSpace s :=
    dropWhile_eq_self_of_head (fun a ha => head?_trimSpace_false ha)
  have h2 : (trimSpace s).reverse.dropWhile Char.isWhitespace = (trimSpace s).reverse := by
    apply dropWhile_eq_self_of_head
    intro a ha
    rw [List.head?_reverse] at ha
    exact getLast?_trimSpace_false ha
  conv_lhs => rw [trimSpace, h1, h2, List.reverse_reverse]

/-- Whatever `TrimSpace` keeps was in the original string. -/
theorem mem_trimSpace_sub {c : Char} {s : GoStr} (h : c ∈ trimSpace s) : c ∈ s := by
  rw [trimSpace, List.mem_reverse] at h
  have h2 := (List.dropWhile_sublist Char.isWhitespace).mem h
  rw [List.mem_reverse] at h2
  exact (List.dropWhile_sublist Char.isWhitespace).mem h2

theorem not_nl_mem_splitOnNl {s : GoStr} : ∀ {p : GoStr}, p ∈ splitOnNl s → nlChar ∉ p := by
  induction s with
  | nil =>
    intro p hp
    simp [splitOnNl] at hp
    simp [hp]
  | cons c rest ih =>
    intro p hp
    by_cases hc : c = nlChar
    · subst hc
      rw [splitOnNl_nl] at hp
      rcases List.mem_cons.mp hp with h | h
      · simp [h]
      · exact ih h
    · rw [splitOnNl_cons_of_ne_nl hc] at hp
      cases hsp : splitOnNl rest with
      | nil => exact absurd hsp (splitOnNl_ne_nil rest)
      | cons q qs =>
        rw [hsp] at hp
        simp only [List.modifyHead, List.mem_cons] at hp
        rcases hp with h | h
        · subst h
          intro hmem
          rcases List.mem_cons.mp hmem with h2 | h2
          · exact hc h2.symm
          · exact ih (hsp ▸ List.mem_cons_self q qs) h2
        · exact ih (hsp ▸ List.mem_cons_of_mem q h)

theorem not_nl_mem_scanLines {s : GoStr} {p : GoStr} (hp : p ∈ scanLines s) :
    nlChar ∉ p := by
  rw [scanLines] at hp
  by_cases hs : s = []
  · rw [if_pos hs] at hp
    simp at hp
  · rw [if_neg hs] at hp
    by_cases hlast : (splitOnNl s).getLast? = some []
    · rw [if_pos hlast] at hp
      exact not_nl_mem_splitOnNl ((List.dropLast_sublist _).mem hp)
    · rw [if_neg hlast] at hp
      exact not_nl_mem_splitOnNl hp

/-- Claim C10, counterexample: the claim fails for the entry `" a "`, which
contains no newline and is not whitespace-only, but is altered by the
reader's trimming: writing it and reading back yields `"a"`. -/
theorem C10_roundtrip_counterexample :
    ¬ readBack (writeContent [gostr " a "]) = [gostr " a "] := by decide

/-- Claim C10 as amended: for every non-empty list of collected entries in which
each entry contains no newline, is non-empty, and is unchanged by whitespace
trimming, writing the cache file and reading it back with the cache reader
yields exactly the same entries in the same order. -/
theorem C10_roundtrip (l : List GoStr) (h1 : l ≠ [])
    (h2 : ∀ s ∈ l, nlChar ∉ s) (h3 : ∀ s ∈ l, trimSpace s = s)
    (h4 : ∀ s ∈ l, s ≠ []) :
    readBack (writeContent l) = l := by
  rw [readBack, scanLines_writeContent l h1 h2]
  have hmap : l.map trimSpace = l := by
    conv_rhs => rw [← List.map_id l]
    exact List.map_congr_left (fun s hs => h3 s hs)
  rw [hmap, List.filter_eq_self.mpr]
  intro a ha
  simp [h4 a ha]

/-- Witness for C10 (amended) at a concrete entry list. -/
theorem C10_roundtrip_witness :
    readBack (writeContent [gostr "acme/widgets", gostr "acme/gadgets"]) =
      [gostr "acme/widgets", gostr "acme/gadgets"] :=
  C10_roundtrip _ (by decide) (by decide) (by decide) (by decide)

/-- Claim C7, counterexample: a run whose merge stream yields zero entries writes
`"\n"`, whose single line is blank, so the written cache file does not
consist of non-blank key lines. -/
theorem C7_counterexample : scanLines (writeContent []) = [[]] := by decide

/-- Claim C7 as amended: for every run whose merge stream yields at least one
entry (candidate keys never contain a newline), the cache file written at
the end of the run contains exactly the forwarded keys, one per line, with
no blank lines; a zero-entry run instead writes a single blank line. -/
theorem C7_cache_lines (arrival : List GoStr) (h1 : dedupe arrival ≠ [])
    (h2 : ∀ s ∈ arrival, nlChar ∉ s) :
    scanLines (writeContent (dedupe arrival)) = dedupe arrival ∧
      ∀ line ∈ scanLines (writeContent (dedupe arrival)), line ≠ [] := by
  have hmem : ∀ s ∈ dedupe arrival, nlChar ∉ s :=
    fun s hs => h2 s (mem_dedupe.mp hs).2
  have h := scanLines_writeContent _ h1 hmem
  exact ⟨h, fun line hl => dedupe_mem_ne_nil (h ▸ hl)⟩

/-- Witness for C7 (amended) at a concrete arrival sequence. -/
theorem C7_cache_lines_witness :
    scanLines (writeContent (dedupe [gostr "acme/widgets"])) =
        dedupe [gostr "acme/widgets"] ∧
      ∀ line ∈ scanLines (writeContent (dedupe [gostr "acme/widgets"])), line ≠ [] :=
  C7_cache_lines _ (by decide) (by decide)

/-!
## Line formatter (`src/internal/github/queries.go` lines 14-15 and 54-89,
`src/unnamed/part_001` `AlignStrings`)

`sort.Strings` sorts ascending in Go's byte-wise lexicographic string order;
we model that order on `GoStr` by `lexLe` and the sort itself by Mathlib's
insertion sort, which produces the same ascending ordering. -/

def pageSize : Nat := 100

def maxLineWidth : Nat := 150

/-- Go's `s1 <= s2` on strings: byte-wise lexicographic comparison. -/
def lexLe : GoStr → GoStr → Bool
  | [], _ => true
  | _ :: _, [] => false
  | a :: as, b :: bs => if a = b then lexLe as bs else decide (a < b)

/-- `lexLe` as a relation. -/
def LexLe (s t : GoStr) : Prop := lexLe s t = true

instance : DecidableRel LexLe :=
  fun s t => inferInstanceAs (Decidable (lexLe s t = true))

theorem lexLe_total : ∀ a b : GoStr, lexLe a b = true ∨ lexLe b a = true
  | [], _ => Or.inl rfl
  | _ :: _, [] => Or.inr rfl
  | x :: xs, y :: ys => by
    rw [lexLe, lexLe]
    by_cases hxy : x = y
    · subst hxy
      rw [if_pos rfl, if_pos rfl]
      exact lexLe_total xs ys
    · rw [if_neg hxy, if_neg (Ne.symm hxy)]
      rcases lt_or_gt_of_ne hxy with h | h
      · exact Or.inl (decide_eq_true h)
      · exact Or.inr (decide_eq_true h)

theorem lexLe_trans :
    ∀ a b c : GoStr, lexLe a b = true → lexLe b c = true → lexLe a c = true
  | [], _, _, _, _ => rfl
  | _ :: _, [], _, h, _ => by simp [lexLe] at h
  | _ :: _, _ :: _, [], _, h => by simp [lexLe] at h
  | x :: xs, y :: ys, z :: zs, h1, h2 => by
    rw [lexLe] at h1 h2 ⊢
    by_cases hxy : x = y
    · subst hxy
      rw [if_pos rfl] at h1
      by_cases hyz : x = z
      · subst hyz
        rw [if_pos rfl] at h2 ⊢
        exact lexLe_trans xs ys zs h1 h2
      · rw [if_neg hyz] at h2 ⊢
        exact h2
    · rw [if_neg hxy] at h1
      by_cases hyz : y = z
      · subst hyz
        rw [if_neg hxy]
        exact h1
      · rw [if_neg hyz] at h2
        have hlt : x < z := lt_trans (of_decide_eq_true h1) (of_decide_eq_true h2)
        rw [if_neg (ne_of_lt hlt)]
        exact decide_eq_true hlt

instance : IsTotal GoStr LexLe := ⟨lexLe_total⟩

instance : IsTrans GoStr LexLe := ⟨fun a b c => lexLe_trans a b c⟩

/-- `sort.Strings`: sort ascending in lexicographic order. -/
def sortStrings (l : List GoStr) : List GoStr := List.insertionSort LexLe l

/-- `utils.AlignStrings` (`src/unnamed/part_001`): align two strings with
maximum space padding between them, up to `maxWidth`; if their combined
length exceeds `maxWidth` they are concatenated without padding. -/
def AlignStrings (s1 s2 : GoStr) (maxWidth : Nat) : GoStr :=
  let totalLen := s1.length + s2.length
  if totalLen > maxWidth then s1 ++ s2
  else s1 ++ List.replicate (maxWidth - totalLen) ' ' ++ s2

/-- A repository record as fetched from the API.  `topicNames` collects
`RepositoryTopics.Nodes[i].Topic.Name` (at most 5 entries). -/
structure Repository where
  NameWithOwner : GoStr
  IsFork : Bool
  IsArchived : Bool
  topicNames : List GoStr
deriving DecidableEq

/-- The right-hand side built by `Repository.Line`: `"archived"` if archived,
then `"fork"` if fork, then the bracketed comma-joined sorted topic list if
topics are present.  Transcribes the sequential `append`s of the Go code. -/
def Repository.rightList (r : Repository) : List GoStr :=
  let right : List GoStr := []
  let right := if r.IsArchived then right ++ [gostr "archived"] else right
  let right := if r.IsFork then right ++ [gostr "fork"] else right
  let right :=
    if r.topicNames ≠ [] then
      right ++ [gostr "[" ++ goJoin (gostr ",") (sortStrings r.topicNames) ++ gostr "]"]
    else right
  right

/-- `Repository.Line` (`queries.go` lines 54-89): the display line for one
repository record. -/
def Repository.Line (r : Repository) : GoStr :=
  let left := r.NameWithOwner
  let right := r.rightList
  if right = [] then left
  else AlignStrings left (goJoin (gostr " | ") right) maxLineWidth

theorem AlignStrings_of_le {s1 s2 : GoStr} {w : Nat} (h : s1.length + s2.length ≤ w) :
    AlignStrings s1 s2 w = s1 ++ List.replicate (w - (s1.length + s2.length)) ' ' ++ s2 := by
  simp only [AlignStrings]
  rw [if_neg (by omega)]

theorem AlignStrings_of_gt {s1 s2 : GoStr} {w : Nat} (h : w < s1.length + s2.length) :
    AlignStrings s1 s2 w = s1 ++ s2 := by
  simp only [AlignStrings]
  rw [if_pos (by omega)]

/-- Claim C4: for every repository record whose right-hand side is non-empty,
if the base text plus the joined right side fits in `maxLineWidth` (150) then
the formatted line has length exactly 150 (padding spaces fill the gap, hence
length is at least the width); otherwise the line is exactly the base text
concatenated with the right side, with no padding and no truncation. -/
theorem C4_line_padding (r : Repository) (hne : r.rightList ≠ []) :
    (r.NameWithOwner.length + (goJoin (gostr " | ") r.rightList).length ≤ maxLineWidth →
      r.Line.length = maxLineWidth) ∧
    (maxLineWidth < r.NameWithOwner.length + (goJoin (gostr " | ") r.rightList).length →
      r.Line = r.NameWithOwner ++ goJoin (gostr " | ") r.rightList) := by
  constructor
  · intro hle
    simp only [Repository.Line]
    rw [if_neg hne, AlignStrings_of_le hle]
    simp only [List.length_append, List.length_replicate]
    omega
  · intro hgt
    simp only [Repository.Line]
    rw [if_neg hne, AlignStrings_of_gt hgt]

/-- Witness for C4 at a concrete archived repository whose line fits the
width. -/
theorem C4_line_padding_witness :
    (Repository.Line ⟨gostr "acme/widgets", false, true, []⟩).length = maxLineWidth :=
  (C4_line_padding ⟨gostr "acme/widgets", false, true, []⟩ (by decide)).1 (by decide)

/-- Claim C5: the formatter builds its right-hand side in the fixed order
archived, fork, bracketed topic list; the topic list is sorted
lexicographically ascending (a permutation of the topics, sorted under the
Go string order), topics `zeta, alpha` format as `[alpha,zeta]`, and a record
with an empty right-hand side formats as exactly `NameWithOwner`. -/
theorem C5_line_order (r : Repository) :
    r.rightList =
        (if r.IsArchived then [gostr "archived"] else []) ++
          (if r.IsFork then [gostr "fork"] else []) ++
          (if r.topicNames ≠ [] then
            [gostr "[" ++ goJoin (gostr ",") (sortStrings r.topicNames) ++ gostr "]"]
          else []) ∧
      (sortStrings r.topicNames).Sorted LexLe ∧
      (sortStrings r.topicNames).Perm r.topicNames ∧
      Repository.rightList ⟨gostr "o/r", false, false, [gostr "zeta", gostr "alpha"]⟩ =
        [gostr "[alpha,zeta]"] ∧
      (r.rightList = [] → r.Line = r.NameWithOwner) := by
  refine ⟨?_, List.sorted_insertionSort LexLe r.topicNames,
    List.perm_insertionSort LexLe r.topicNames, by decide, ?_⟩
  · rw [Repository.rightList]
    by_cases h1 : r.IsArchived <;> by_cases h2 : r.IsFork <;>
      by_cases h3 : r.topicNames = [] <;> simp [h1, h2, h3]
  · intro hnil
    simp [Repository.Line, hnil]

/-- Witness for C5 at a concrete repository with no `archived`/`fork` flags
and no topics. -/
theorem C5_line_order_witness :
    Repository.Line ⟨gostr "acme/widgets", false, false, []⟩ = gostr "acme/widgets" :=
  (C5_line_order ⟨gostr "acme/widgets", false, false, []⟩).2.2.2.2 (by decide)

/-!
## Paginated fetch loop

`GetUserRepositories` drives cursor pagination: it issues a query, handles
the page, and loops while `HasNextPage` is true, moving the cursor to
`EndCursor`.  We model the server as the list of successive query responses
(the cursor bookkeeping selects exactly the next response).  Two historical
variants coexist in the repository:
* `src/unnamed/part_000` lines 91-131 (and `queries.go` lines 236-283)
  append the page's nodes and then test `HasNextPage`;
* `queries.go` lines 364-411 test `HasNextPage` and break out of the loop
  before appending, silently dropping the final page's nodes. -/

/-- `PageInfo` of the `Repositories` GraphQL payload. -/
structure PageInfo where
  EndCursor : GoStr
  HasNextPage : Bool

/-- One query response (`Repositories` struct). -/
structure Page where
  TotalCount : Nat
  Nodes : List Repository
  PageInfo : PageInfo

/-- The fetch loop of `GetUserRepositories` in `src/unnamed/part_000`
(lines 91-131): issue one request per page, append `Nodes`, then stop when
`HasNextPage` is false.  Returns the number of page requests issued and the
aggregated repositories; `none` models a server that runs out of responses
while `HasNextPage` was still true. -/
def fetchPagesAppendThenCheck : List Page → Option (Nat × List Repository)
  | [] => none
  | p :: rest =>
    if p.PageInfo.HasNextPage then
      match fetchPagesAppendThenCheck rest with
      | none => none
      | some (n, repos) => some (n + 1, p.Nodes ++ repos)
    else some (1, p.Nodes)

/-- The fetch loop of the `GetUserRepositories` variant at
`src/internal/github/queries.go` lines 364-411, which tests `HasNextPage`
and breaks out of the loop before appending the page's nodes, so the final
page never contributes. -/
def fetchPagesCheckThenAppend : List Page → Option (Nat × List Repository)
  | [] => none
  | p :: rest =>
    if p.PageInfo.HasNextPage then
      match fetchPagesCheckThenAppend rest with
      | none => none
      | some (n, repos) => some (n + 1, p.Nodes ++ repos)
    else some (1, [])

/-- The append-then-check loop visits every page exactly once and aggregates
every node, for any response sequence whose last page (and only it) reports
`HasNextPage = false`. -/
theorem fetchPagesAppendThenCheck_complete : ∀ pages : List Page,
    pages ≠ [] →
    (∀ p ∈ pages.dropLast, p.PageInfo.HasNextPage = true) →
    (∀ p, pages.getLast? = some p → p.PageInfo.HasNextPage = false) →
    fetchPagesAppendThenCheck pages = some (pages.length, (pages.map Page.Nodes).flatten)
  | [], h, _, _ => absurd rfl h
  | [p], _, _, hlast => by
    rw [fetchPagesAppendThenCheck, if_neg]
    · simp
    · simp [hlast p rfl]
  | p :: q :: rest, _, hnext, hlast => by
    have hp : p.PageInfo.HasNextPage = true := by
      apply hnext
      rw [List.dropLast_cons₂]
      exact List.mem_cons_self p _
    rw [fetchPagesAppendThenCheck, if_pos hp,
      fetchPagesAppendThenCheck_complete (q :: rest) (by simp)
        (fun x hx => hnext x (by rw [List.dropLast_cons₂]; exact List.mem_cons_of_mem p hx))
        (fun x hx => hlast x (by rw [List.getLast?_cons_cons]; exact hx))]
    simp

/-- A repository record named after a number, used to build concrete pages. -/
def demoRepo (i : Nat) : Repository := ⟨Nat.toDigits 10 i, false, false, []⟩

/-- A server holding 250 repositories served in pages of 100, 100 and 50,
with `HasNextPage` true, true, false. -/
def demoServer250 : List Page :=
  [⟨250, ((List.range 250).take 100).map demoRepo, ⟨gostr "c1", true⟩⟩,
   ⟨250, (((List.range 250).drop 100).take 100).map demoRepo, ⟨gostr "c2", true⟩⟩,
   ⟨250, ((List.range 250).drop 200).map demoRepo, ⟨gostr "c3", false⟩⟩]

set_option maxRecDepth 100000 in
/-- Claim C2: over a paginated source holding 250 repositories in pages of
100, 100 and 50 (`HasNextPage` true, true, false), the append-then-check
fetch loop of `src/unnamed/part_000` issues exactly 3 page requests and
aggregates all 250 records; but the check-then-append variant at
`src/internal/github/queries.go` lines 364-411 likewise issues 3 requests
yet aggregates only the first 200 records, dropping the final page. -/
theorem C2_pagination :
    fetchPagesAppendThenCheck demoServer250 =
      some (3, (List.range 250).map demoRepo) ∧
    ((List.range 250).map demoRepo).length = 250 ∧
    fetchPagesCheckThenAppend demoServer250 =
      some (3, ((List.range 250).take 200).map demoRepo) ∧
    (((List.range 250).take 200).map demoRepo).length = 200 := by
  refine ⟨by decide, by decide, by decide, by decide⟩

/-!
## Fetch failure handling

Inside every fetch loop (`GetUserRepositories` / `GetOrgRepositories`,
`queries.go` lines 236-326, and `ProcessUserRepositories` /
`ProcessOrgRepositories`, lines 91-199) a query failure is handled by
`log.Fatal(err)`, which terminates the whole process.  The fetch functions
therefore never return a non-nil error, and the lenient per-org error
handling in `main.go` lines 156-174 ("Log error but continue with other
orgs") is unreachable. -/

/-- One GraphQL query attempt: a page, or a transport/query error. -/
inductive QueryReply where
  | page (p : Page)
  | failure (msg : GoStr)

/-- Result of one fetch call with the `log.Fatal` made explicit. -/
inductive FetchOutcome where
  | ok (repos : List Repository)
  | fatal

def FetchOutcome.isFatal : FetchOutcome → Bool
  | .fatal => true
  | .ok _ => false

/-- The names a finished fetch feeds to the merge pipeline
(`sendUniqueRepoName(repo.NameWithOwner)`, `main.go` lines 148-151 and
167-170). -/
def FetchOutcome.names : FetchOutcome → List GoStr
  | .fatal => []
  | .ok rs => rs.map Repository.NameWithOwner

/-- The fetch loop of `GetOrgRepositories` (`queries.go` lines 285-326):
pages aggregate as in `fetchPagesAppendThenCheck`, and a failed query
reaches `log.Fatal`, killing the process (an exhausted reply list is also
treated as a failure). -/
def fetchLoopFatal : List QueryReply → FetchOutcome
  | [] => .fatal
  | .failure _ :: _ => .fatal
  | .page p :: rest =>
    if p.PageInfo.HasNextPage then
      match fetchLoopFatal rest with
      | .fatal => .fatal
      | .ok rs => .ok (p.Nodes ++ rs)
    else .ok p.Nodes

/-- Result of the whole fetch phase of a run. -/
inductive RunResult where
  | completed (candidates : List GoStr)
  | aborted

/-- The fetch phase of `main.go` (lines 139-183): the user fetch and one
fetch per organization run their loops; all forwarded names are offered to
the merge pipeline, but if any fetch reaches `log.Fatal` the whole process
dies.  Source order here is irrelevant to the abort question. -/
def runFetchPhase (userReplies : Option (List QueryReply))
    (orgReplies : List (List QueryReply)) : RunResult :=
  let outcomes :=
    (match userReplies with
      | none => []
      | some qs => [fetchLoopFatal qs]) ++ orgReplies.map fetchLoopFatal
  if outcomes.any FetchOutcome.isFatal then .aborted
  else .completed ((outcomes.map FetchOutcome.names).flatten)

/-- Claim C3: the code violates the claim.  With a user source and two
organizations where only the second organization's query fails, each healthy
source succeeds on its own and the lenient run would emit their names, but
the failing fetch reaches `log.Fatal` and the whole process aborts, so the
user fetch and the healthy organization are prevented from contributing. -/
theorem C3_org_failure_aborts :
    fetchLoopFatal [QueryReply.page ⟨1, [demoRepo 1], ⟨gostr "c", false⟩⟩] =
      FetchOutcome.ok [demoRepo 1] ∧
    fetchLoopFatal [QueryReply.page ⟨1, [demoRepo 2], ⟨gostr "c", false⟩⟩] =
      FetchOutcome.ok [demoRepo 2] ∧
    runFetchPhase (some [QueryReply.page ⟨1, [demoRepo 1], ⟨gostr "c", false⟩⟩])
        [[QueryReply.page ⟨1, [demoRepo 2], ⟨gostr "c", false⟩⟩]] =
      RunResult.completed [Nat.toDigits 10 1, Nat.toDigits 10 2] ∧
    runFetchPhase (some [QueryReply.page ⟨1, [demoRepo 1], ⟨gostr "c", false⟩⟩])
        [[QueryReply.page ⟨1, [demoRepo 2], ⟨gostr "c", false⟩⟩],
         [QueryReply.failure (gostr "boom")]] =
      RunResult.aborted := by
  refine ⟨rfl, rfl, ?_, ?_⟩ <;>
    simp [runFetchPhase, fetchLoopFatal, FetchOutcome.isFatal, FetchOutcome.names, demoRepo]

/-!
## Run tail: drain, print, save (`src/main.go` lines 185-197)

After the channel closes, `main` has printed every forwarded entry (the
consumer loop prints while collecting), then writes the joined collection
to the cache file with `os.WriteFile`; a write error is only passed to
`log.Printf` and `main` returns normally. -/

/-- Externally visible actions of the run tail. -/
inductive Effect where
  | print (s : GoStr)
  | writeCacheFile (content : GoStr)

/-- The tail of `main`: stream every channel item to stdout while collecting
it, then write the joined collection to the cache file. -/
def mainTailEffects (stream : List GoStr) : List Effect :=
  (stream.map Effect.print) ++ [Effect.writeCacheFile (writeContent stream)]

/-- Observable state: stdout lines so far, current cache file content, and
whether the process exited with an error. -/
structure World where
  stdoutLines : List GoStr
  cacheFile : GoStr
  exitedWithError : Bool

/-- Effect semantics: `fmt.Println` appends a stdout line; `os.WriteFile`
replaces the file content entirely when it succeeds, while on failure the
error is only logged, leaving the file as it was and never flipping the
process into an error exit. -/
def applyEffect (writeSucceeds : Bool) (w : World) : Effect → World
  | .print s => { w with stdoutLines := w.stdoutLines ++ [s] }
  | .writeCacheFile content =>
    if writeSucceeds then { w with cacheFile := content } else w

def runEffects (writeSucceeds : Bool) (w : World) (effs : List Effect) : World :=
  effs.foldl (applyEffect writeSucceeds) w

theorem runEffects_prints (ws : Bool) (l : List GoStr) : ∀ w : World,
    runEffects ws w (l.map Effect.print) =
      { w with stdoutLines := w.stdoutLines ++ l } := by
  induction l with
  | nil => intro w; simp [runEffects]
  | cons x xs ih =>
    intro w
    rw [List.map_cons, runEffects, List.foldl_cons]
    have h := ih { w with stdoutLines := w.stdoutLines ++ [x] }
    rw [runEffects] at h
    rw [show applyEffect ws w (Effect.print x) =
      { w with stdoutLines := w.stdoutLines ++ [x] } from rfl, h]
    simp

/-- Claim C6: after the merge stream is fully drained, the cache file is
overwritten in full (not appended) with the forwarded unique entries in
arrival order joined by newline; when that write fails the old file content
survives unchanged, the stdout lines printed during the run are the same
either way, and the process does not exit with an error. -/
theorem C6_cache_writer (stream : List GoStr) (oldFile : GoStr) (writeSucceeds : Bool) :
    (runEffects writeSucceeds ⟨[], oldFile, false⟩ (mainTailEffects stream)).stdoutLines =
        stream ∧
      (runEffects writeSucceeds ⟨[], oldFile, false⟩ (mainTailEffects stream)).cacheFile =
        (if writeSucceeds then writeContent stream else oldFile) ∧
      (runEffects writeSucceeds ⟨[], oldFile, false⟩
          (mainTailEffects stream)).exitedWithError = false := by
  have hunfold : runEffects writeSucceeds ⟨[], oldFile, false⟩ (mainTailEffects stream) =
      applyEffect writeSucceeds
        (runEffects writeSucceeds ⟨[], oldFile, false⟩ (stream.map Effect.print))
        (Effect.writeCacheFile (writeContent stream)) := by
    rw [mainTailEffects, runEffects, List.foldl_append]
    rfl
  rw [hunfold, runEffects_prints]
  cases writeSucceeds <;> simp [applyEffect]

/-!
## Two consecutive runs (`src/main.go`)

A run merges the cache-reader candidates (scanned lines, trimmed) with the
fetched names into one arrival sequence, prints `dedupe arrival`, and writes
it back to the cache file.  The arrival interleaving across sources is
nondeterministic, so it is modelled as an arbitrary permutation of the
per-source candidate lists. -/

/-- The candidate keys the cache-reader goroutine offers to the merge
pipeline for a given file content (`main.go` lines 124-128): each scanned
line, trimmed (empties are dropped later by `sendUniqueRepoName`). -/
def cacheCandidates (content : GoStr) : List GoStr :=
  (scanLines content).map trimSpace

theorem mem_cacheCandidates_trim_nl {content s : GoStr}
    (hs : s ∈ cacheCandidates content) : nlChar ∉ s ∧ trimSpace s = s := by
  rw [cacheCandidates, List.mem_map] at hs
  obtain ⟨x, hx, hsx⟩ := hs
  subst hsx
  refine ⟨fun hmem => not_nl_mem_scanLines hx (mem_trimSpace_sub hmem), trimSpace_idem x⟩

theorem mem_scanLines_writeContent {out : List GoStr}
    (hnl : ∀ s ∈ out, nlChar ∉ s) {k : GoStr} :
    k ∈ scanLines (writeContent out) ↔ (k ∈ out ∨ (out = [] ∧ k = [])) := by
  by_cases hout : out = []
  · subst hout
    have h : scanLines (writeContent []) = [[]] := by decide
    rw [h]
    simp
  · rw [scanLines_writeContent out hout hnl]
    simp [hout]

theorem mem_cacheCandidates_writeContent {out : List GoStr}
    (hnl : ∀ s ∈ out, nlChar ∉ s) (htrim : ∀ s ∈ out, trimSpace s = s) {k : GoStr} :
    k ∈ cacheCandidates (writeContent out) ↔ (k ∈ out ∨ (out = [] ∧ k = [])) := by
  rw [cacheCandidates]
  by_cases hout : out = []
  · subst hout
    have h : scanLines (writeContent []) = [[]] := by decide
    rw [h]
    simp [trimSpace]
  · rw [scanLines_writeContent out hout hnl]
    constructor
    · intro hk
      rw [List.mem_map] at hk
      obtain ⟨x, hx, hkx⟩ := hk
      subst hkx
      rw [htrim x hx]
      exact Or.inl hx
    · rintro (hk | ⟨h, _⟩)
      · exact List.mem_map.mpr ⟨k, hk, htrim k hk⟩
      · exact absurd h hout

/-- Claim C9: for a fixed upstream repository set and fixed flags, a second
run reading the cache file written by the first run produces a cache file
whose lines, viewed as a set of keys, equal the lines of the first run's
cache file --- for any arrival interleavings of the two runs. -/
theorem C9_second_run_stable (c0 : GoStr) (fetched a1 a2 : List GoStr)
    (hf : ∀ s ∈ fetched, nlChar ∉ s ∧ trimSpace s = s)
    (h1 : a1.Perm (cacheCandidates c0 ++ fetched))
    (h2 : a2.Perm (cacheCandidates (writeContent (dedupe a1)) ++ fetched)) :
    ∀ k, k ∈ scanLines (writeContent (dedupe a2)) ↔
      k ∈ scanLines (writeContent (dedupe a1)) := by
  have hout1 : ∀ s ∈ dedupe a1, nlChar ∉ s ∧ trimSpace s = s := by
    intro s hs
    have hsa1 : s ∈ a1 := (mem_dedupe.mp hs).2
    have : s ∈ cacheCandidates c0 ++ fetched := h1.mem_iff.mp hsa1
    rcases List.mem_append.mp this with h | h
    · exact mem_cacheCandidates_trim_nl h
    · exact hf s h
  have hmem12 : ∀ k, k ∈ dedupe a2 ↔ k ∈ dedupe a1 := by
    intro k
    rw [mem_dedupe, mem_dedupe, h1.mem_iff, h2.mem_iff, List.mem_append, List.mem_append]
    constructor
    · rintro ⟨hk, hsrc | hsrc⟩
      · rcases (mem_cacheCandidates_writeContent (fun s hs => (hout1 s hs).1)
            (fun s hs => (hout1 s hs).2)).mp hsrc with h | ⟨_, h⟩
        · have := (mem_dedupe.mp h).2
          exact ⟨hk, List.mem_append.mp (h1.mem_iff.mp this)⟩
        · exact absurd h hk
      · exact ⟨hk, Or.inr hsrc⟩
    · rintro ⟨hk, hsrc⟩
      refine ⟨hk, ?_⟩
      rcases hsrc with h | h
      · left
        rw [mem_cacheCandidates_writeContent (fun s hs => (hout1 s hs).1)
            (fun s hs => (hout1 s hs).2)]
        exact Or.inl (mem_dedupe.mpr ⟨hk, h1.mem_iff.mpr (List.mem_append.mpr (Or.inl h))⟩)
      · exact Or.inr h
  have hnil : dedupe a2 = [] ↔ dedupe a1 = [] := by
    rw [List.eq_nil_iff_forall_not_mem, List.eq_nil_iff_forall_not_mem]
    constructor
    · intro h k hk
      exact h k ((hmem12 k).mpr hk)
    · intro h k hk
      exact h k ((hmem12 k).mp hk)
  have hout2 : ∀ s ∈ dedupe a2, nlChar ∉ s := by
    intro s hs
    exact (hout1 s ((hmem12 s).mp hs)).1
  intro k
  rw [mem_scanLines_writeContent hout2,
    mem_scanLines_writeContent (fun s hs => (hout1 s hs).1), hmem12, hnil]

/-- Witness for C9 at a concrete first-run cache file, upstream set and
sequential (cache-first) arrival orders. -/
theorem C9_second_run_stable_witness :
    (gostr "acme/gadgets" ∈
        scanLines (writeContent (dedupe (cacheCandidates
          (writeContent (dedupe (cacheCandidates (gostr "acme/widgets\n") ++
            [gostr "acme/widgets", gostr "acme/gadgets"]))) ++
          [gostr "acme/widgets", gostr "acme/gadgets"]))) ↔
      gostr "acme/gadgets" ∈
        scanLines (writeContent (dedupe (cacheCandidates (gostr "acme/widgets\n") ++
          [gostr "acme/widgets", gostr "acme/gadgets"])))) :=
  C9_second_run_stable (gostr "acme/widgets\n")
    [gostr "acme/widgets", gostr "acme/gadgets"] _ _
    (by decide) (List.Perm.refl _) (List.Perm.refl _) (gostr "acme/gadgets")

/-!
## Channel close discipline (`src/main.go` lines 108-183,
`src/unnamed/part_002` lines 75-134)

`main` starts a cache-reader goroutine and an API goroutine, both counted by
the main wait group `wg`; the API goroutine performs the user sends and
spawns one goroutine per organization, counted by an inner wait group
(`orgWG` / `fetchWG`), and waits for that group before returning; a
dedicated closer goroutine performs `wg.Wait()` and then `close`s the
channel.  We model the reachable interleavings as a labelled transition
system whose guards are exactly the program-order and wait-group facts of
the code:
* a goroutine runs its deferred `wg.Done` only after its last send;
* the API goroutine's `wg.Done` fires only after its user sends are done
  and every organization goroutine has run `orgWG.Done` (`orgWG.Wait()`);
* the closer's `close` fires only after both counted goroutines have run
  `wg.Done` (`wg.Wait()`), and the closer closes at most once.
Sends are NOT guarded by the channel being open: that no send can ever
follow the `close` event is the theorem, not an assumption.  (Letting the
organization goroutines run before the user sends finish only adds
interleavings relative to the real program, so the safety proved here
covers every real schedule.) -/

/-- One organization-fetch goroutine: pending sends, and whether its
`orgWG.Done` has run. -/
structure OrgState where
  rem : List GoStr
  orgWgDone : Bool

/-- Global state of the merge pipeline. -/
structure PipeState where
  cacheRem : List GoStr
  cacheWgDone : Bool
  userRem : List GoStr
  orgs : List OrgState
  apiWgDone : Bool
  closed : Bool

/-- Observable events of one scheduler step. -/
inductive Ev where
  | send (s : GoStr)
  | close
  | internal

def Ev.isClose : Ev → Bool
  | .close => true
  | _ => false

/-- One scheduler step of the pipeline. -/
inductive Step : PipeState → Ev → PipeState → Prop where
  | cacheSend (st : PipeState) (s : GoStr) (r : List GoStr) :
      st.cacheRem = s :: r →
      Step st (.send s) { st with cacheRem := r }
  | cacheWgDone (st : PipeState) :
      st.cacheRem = [] → st.cacheWgDone = false →
      Step st .internal { st with cacheWgDone := true }
  | userSend (st : PipeState) (s : GoStr) (r : List GoStr) :
      st.userRem = s :: r →
      Step st (.send s) { st with userRem := r }
  | orgSend (st : PipeState) (i : Nat) (o : OrgState) (s : GoStr) (r : List GoStr) :
      st.orgs[i]? = some o → o.rem = s :: r →
      Step st (.send s) { st with orgs := st.orgs.set i ⟨r, o.orgWgDone⟩ }
  | orgWgDone (st : PipeState) (i : Nat) (o : OrgState) :
      st.orgs[i]? = some o → o.rem = [] → o.orgWgDone = false →
      Step st .internal { st with orgs := st.orgs.set i ⟨[], true⟩ }
  | apiWgDone (st : PipeState) :
      st.userRem = [] → (∀ o ∈ st.orgs, o.orgWgDone = true) → st.apiWgDone = false →
      Step st .internal { st with apiWgDone := true }
  | closeChan (st : PipeState) :
      st.cacheWgDone = true → st.apiWgDone = true → st.closed = false →
      Step st .close { st with closed := true }

/-- A finite execution: the list of events of successive steps. -/
inductive Steps : PipeState → List Ev → PipeState → Prop where
  | refl (st : PipeState) : Steps st [] st
  | head {st1 st2 st3 : PipeState} {e : Ev} {tr : List Ev} :
      Step st1 e st2 → Steps st2 tr st3 → Steps st1 (e :: tr) st3

/-- The initial state of `main`: every goroutine still has all its sends to
perform, no wait-group counter has been decremented, the channel is open. -/
def initState (cacheSends userSends : List GoStr) (orgSends : List (List GoStr)) :
    PipeState :=
  { cacheRem := cacheSends, cacheWgDone := false, userRem := userSends,
    orgs := orgSends.map (fun l => ⟨l, false⟩), apiWgDone := false, closed := false }

/-- The wait-group invariant: a decremented counter means the corresponding
goroutine has nothing left to send, and a closed channel means `wg.Wait()`
has returned. -/
def Inv (st : PipeState) : Prop :=
  (st.cacheWgDone = true → st.cacheRem = []) ∧
  (st.apiWgDone = true → st.userRem = [] ∧ ∀ o ∈ st.orgs, o.orgWgDone = true) ∧
  (∀ o ∈ st.orgs, o.orgWgDone = true → o.rem = []) ∧
  (st.closed = true → st.cacheWgDone = true ∧ st.apiWgDone = true)

theorem inv_initState (cacheSends userSends : List GoStr)
    (orgSends : List (List GoStr)) : Inv (initState cacheSends userSends orgSends) := by
  refine ⟨by simp [initState], by simp [initState], ?_, by simp [initState]⟩
  intro o ho
  simp only [initState, List.mem_map] at ho
  obtain ⟨l, _, hol⟩ := ho
  subst hol
  intro h
  cases h

theorem step_inv {st : PipeState} {e : Ev} {st2 : PipeState}
    (hstep : Step st e st2) (hinv : Inv st) : Inv st2 := by
  obtain ⟨hc, ha, ho, hcl⟩ := hinv
  cases hstep with
  | cacheSend s r hrem =>
    refine ⟨?_, ha, ho, ?_⟩
    · intro h
      have := hc h
      rw [hrem] at this
      cases this
    · intro h
      exact hcl h
  | cacheWgDone hrem hdone =>
    exact ⟨fun _ => hrem, ha, ho, fun h => ⟨rfl, (hcl h).2⟩⟩
  | userSend s r hrem =>
    refine ⟨hc, ?_, ho, hcl⟩
    intro h
    have := ha h
    rw [hrem] at this
    cases this.1
  | orgSend i o s r hget hrem =>
    refine ⟨hc, ?_, ?_, hcl⟩
    · intro h
      refine ⟨(ha h).1, ?_⟩
      intro x hx
      rcases List.mem_or_eq_of_mem_set hx with hx2 | hx2
      · exact (ha h).2 x hx2
      · subst hx2
        have hodone := (ha h).2 o (List.getElem?_mem hget)
        have := ho o (List.getElem?_mem hget) hodone
        rw [hrem] at this
        cases this
    · intro x hx hxdone
      rcases List.mem_or_eq_of_mem_set hx with hx2 | hx2
      · exact ho x hx2 hxdone
      · subst hx2
        have := ho o (List.getElem?_mem hget) hxdone
        rw [hrem] at this
        cases this
  | orgWgDone i o hget hrem hdone =>
    refine ⟨hc, ?_, ?_, hcl⟩
    · intro h
      refine ⟨(ha h).1, ?_⟩
      intro x hx
      rcases List.mem_or_eq_of_mem_set hx with hx2 | hx2
      · exact (ha h).2 x hx2
      · subst hx2; rfl
    · intro x hx hxdone
      rcases List.mem_or_eq_of_mem_set hx with hx2 | hx2
      · exact ho x hx2 hxdone
      · subst hx2; rfl
  | apiWgDone huser horgs hdone =>
    exact ⟨hc, fun _ => ⟨huser, horgs⟩, ho, fun h => ⟨(hcl h).1, rfl⟩⟩
  | closeChan hcd had hcl2 =>
    exact ⟨hc, ha, ho, fun _ => ⟨hcd, had⟩⟩

theorem step_closed_mono {st : PipeState} {e : Ev} {st2 : PipeState}
    (h : Step st e st2) (hc : st.closed = true) : st2.closed = true := by
  cases h with
  | cacheSend s r hrem => exact hc
  | cacheWgDone hrem hdone => exact hc
  | userSend s r hrem => exact hc
  | orgSend i o s r hget hrem => exact hc
  | orgWgDone i o hget hrem hdone => exact hc
  | apiWgDone huser horgs hdone => exact hc
  | closeChan hcd had hcl2 => rfl

theorem steps_inv {st : PipeState} {tr : List Ev} {st2 : PipeState}
    (h : Steps st tr st2) : Inv st → Inv st2 := by
  induction h with
  | refl st => exact id
  | head hstep _ ih => exact fun hinv => ih (step_inv hstep hinv)

theorem steps_closed_mono {st : PipeState} {tr : List Ev} {st2 : PipeState}
    (h : Steps st tr st2) : st.closed = true → st2.closed = true := by
  induction h with
  | refl st => exact id
  | head hstep _ ih => exact fun hc => ih (step_closed_mono hstep hc)

/-- Once the channel is closed, the remaining execution performs no send and
no further close. -/
theorem steps_closed_quiet {st : PipeState} {tr : List Ev} {st2 : PipeState}
    (h : Steps st tr st2) : Inv st → st.closed = true →
    (∀ s, Ev.send s ∉ tr) ∧ tr.countP Ev.isClose = 0 := by
  induction h with
  | refl st =>
    intro _ _
    exact ⟨fun s hmem => absurd hmem (List.not_mem_nil (Ev.send s)), rfl⟩
  | head hstep hsteps ih =>
    intro hinv hc
    obtain ⟨ihs, ihc⟩ := ih (step_inv hstep hinv) (step_closed_mono hstep hc)
    obtain ⟨hcw, ha, ho, hcl⟩ := hinv
    have hdone := hcl hc
    cases hstep with
    | cacheSend s r hrem =>
      have := hcw hdone.1
      rw [hrem] at this
      cases this
    | userSend s r hrem =>
      have := (ha hdone.2).1
      rw [hrem] at this
      cases this
    | orgSend i o s r hget hrem =>
      have hmem := List.getElem?_mem hget
      have := ho o hmem ((ha hdone.2).2 o hmem)
      rw [hrem] at this
      cases this
    | closeChan hcd had hcl2 =>
      rw [hc] at hcl2
      cases hcl2
    | cacheWgDone hrem hdone2 =>
      refine ⟨fun s hmem => ?_, ?_⟩
      · rcases List.mem_cons.mp hmem with he | he
        · cases he
        · exact ihs s he
      · rw [List.countP_cons]
        simp [Ev.isClose, ihc]
    | orgWgDone i o hget hrem hdone2 =>
      refine ⟨fun s hmem => ?_, ?_⟩
      · rcases List.mem_cons.mp hmem with he | he
        · cases he
        · exact ihs s he
      · rw [List.countP_cons]
        simp [Ev.isClose, ihc]
    | apiWgDone huser horgs hdone2 =>
      refine ⟨fun s hmem => ?_, ?_⟩
      · rcases List.mem_cons.mp hmem with he | he
        · cases he
        · exact ihs s he
      · rw [List.countP_cons]
        simp [Ev.isClose, ihc]

/-- From an open channel, the number of `close` events of an execution is 0
or 1 according to whether the channel ends up closed. -/
theorem steps_countClose {st : PipeState} {tr : List Ev} {st2 : PipeState}
    (h : Steps st tr st2) : Inv st → st.closed = false →
    tr.countP Ev.isClose = (if st2.closed = true then 1 else 0) := by
  induction h with
  | refl st =>
    intro _ hc
    rw [hc]
    rfl
  | head hstep hsteps ih =>
    intro hinv hc
    have hinv2 := step_inv hstep hinv
    cases hstep with
    | closeChan hcd had hcl2 =>
      have hquiet := (steps_closed_quiet hsteps hinv2 rfl).2
      have hfinal := steps_closed_mono hsteps rfl
      rw [List.countP_cons, hquiet, hfinal]
      rfl
    | cacheSend s r hrem =>
      rw [List.countP_cons, ih hinv2 hc]
      simp [Ev.isClose]
    | cacheWgDone hrem hdone =>
      rw [List.countP_cons, ih hinv2 hc]
      simp [Ev.isClose]
    | userSend s r hrem =>
      rw [List.countP_cons, ih hinv2 hc]
      simp [Ev.isClose]
    | orgSend i o s r hget hrem =>
      rw [List.countP_cons, ih hinv2 hc]
      simp [Ev.isClose]
    | orgWgDone i o hget hrem hdone =>
      rw [List.countP_cons, ih hinv2 hc]
      simp [Ev.isClose]
    | apiWgDone huser horgs hdone =>
      rw [List.countP_cons, ih hinv2 hc]
      simp [Ev.isClose]

/-- No send event ever follows the close event in any execution trace. -/
theorem steps_no_send_after_close {st : PipeState} {tr : List Ev} {st2 : PipeState}
    (h : Steps st tr st2) : Inv st →
    ∀ pre suf, tr = pre ++ Ev.close :: suf → ∀ s, Ev.send s ∉ suf := by
  induction h with
  | refl st =>
    intro _ pre suf hpre
    exact absurd hpre (by simp)
  | head hstep hsteps ih =>
    intro hinv pre suf hpre
    cases pre with
    | nil =>
      simp only [List.nil_append, List.cons.injEq] at hpre
      obtain ⟨hee, htr⟩ := hpre
      subst hee
      subst htr
      have hclosed2 : ∀ st1 st2 : PipeState, Step st1 Ev.close st2 → st2.closed = true := by
        intro st1 st2 hs
        cases hs with
        | closeChan hcd had hcl2 => rfl
      exact (steps_closed_quiet hsteps (step_inv hstep hinv)
        (hclosed2 _ _ hstep)).1
    | cons p pre2 =>
      simp only [List.cons_append, List.cons.injEq] at hpre
      exact ih (step_inv hstep hinv) pre2 suf hpre.2

/-- An open pipeline can always take a step: some goroutine still has work,
or a wait-group counter is still to be decremented, or the closer can close. -/
theorem pipeline_progress {st : PipeState} (hc : st.closed = false) :
    ∃ e st2, Step st e st2 := by
  cases hcr : st.cacheRem with
  | cons s r => exact ⟨_, _, Step.cacheSend st s r hcr⟩
  | nil =>
    cases hcd : st.cacheWgDone with
    | false => exact ⟨_, _, Step.cacheWgDone st hcr hcd⟩
    | true =>
      cases hur : st.userRem with
      | cons s r => exact ⟨_, _, Step.userSend st s r hur⟩
      | nil =>
        by_cases horem : ∀ o ∈ st.orgs, o.rem = []
        · by_cases hod : ∀ o ∈ st.orgs, o.orgWgDone = true
          · cases had : st.apiWgDone with
            | false => exact ⟨_, _, Step.apiWgDone st hur hod had⟩
            | true => exact ⟨_, _, Step.closeChan st hcd had hc⟩
          · push_neg at hod
            obtain ⟨o, homem, hond⟩ := hod
            obtain ⟨i, hget⟩ := List.mem_iff_getElem?.mp homem
            have hof : o.orgWgDone = false := by
              cases h2 : o.orgWgDone
              · rfl
              · exact absurd h2 hond
            exact ⟨_, _, Step.orgWgDone st i o hget (horem o homem) hof⟩
        · push_neg at horem
          obtain ⟨o, homem, honr⟩ := horem
          obtain ⟨i, hget⟩ := List.mem_iff_getElem?.mp homem
          cases horr : o.rem with
          | nil => exact absurd horr honr
          | cons s r => exact ⟨_, _, Step.orgSend st i o s r hget horr⟩

/-- Claim C8: in every execution of the pipeline from its initial state, the
channel is closed at most once; no send event ever follows the close event
(so closing never races a send and happens only after every producer
--- cache reader, user fetch, all per-organization fetches --- is done,
`close` being guarded by both wait groups); and every completed (stuck)
execution has closed the channel exactly once, necessarily by the closer
transition, the only one that emits `close`. -/
theorem C8_close_once (cacheSends userSends : List GoStr)
    (orgSends : List (List GoStr)) {tr : List Ev} {st2 : PipeState}
    (h : Steps (initState cacheSends userSends orgSends) tr st2) :
    tr.countP Ev.isClose ≤ 1 ∧
      (∀ pre suf, tr = pre ++ Ev.close :: suf → ∀ s, Ev.send s ∉ suf) ∧
      ((∀ e st3, ¬ Step st2 e st3) → tr.countP Ev.isClose = 1) := by
  have hinv := inv_initState cacheSends userSends orgSends
  have hcount := steps_countClose h hinv rfl
  refine ⟨?_, steps_no_send_after_close h hinv, ?_⟩
  · rw [hcount]
    split <;> simp
  · intro hterm
    cases hcl : st2.closed with
    | true => rw [hcount, if_pos hcl]
    | false =>
      obtain ⟨e, st3, hstep⟩ := pipeline_progress hcl
      exact absurd hstep (hterm e st3)

/-- Witness for C8 on a concrete complete execution with one cache send. -/
theorem C8_close_once_witness :
    ([Ev.send (gostr "a"), Ev.internal, Ev.internal, Ev.close].countP Ev.isClose ≤ 1) := by
  have hderiv : Steps (initState [gostr "a"] [] [])
      [Ev.send (gostr "a"), Ev.internal, Ev.internal, Ev.close]
      { cacheRem := [], cacheWgDone := true, userRem := [], orgs := [],
        apiWgDone := true, closed := true } := by
    refine Steps.head (Step.cacheSend _ (gostr "a") [] rfl) ?_
    refine Steps.head (Step.cacheWgDone _ rfl rfl) ?_
    refine Steps.head
      (Step.apiWgDone _ rfl (fun o ho => absurd ho (List.not_mem_nil o)) rfl) ?_
    exact Steps.head (Step.closeChan _ rfl rfl rfl) (Steps.refl _)
  exact (C8_close_once [gostr "a"] [] [] hderiv).1

end GhListRepos
